import Mathlib

/-!
Verification of the WENO Euler solver (`compressible/weno_euler.py`).

The solver is shallowly embedded over ℚ: the state buffer `q` of shape
(3, nx + 2*ng) becomes a function `ℕ → ℕ → ℚ` (component, cell), numpy slice
assignments become piecewise function definitions, and `numpy.sqrt` (the only
non-rational operation, used inside `timestep`) is abstracted as a function
parameter `sqrtF : ℚ → ℚ`; no verified property depends on its values.

The coefficient module `weno_coefficients.py` is not part of the sources; the
table shape and its consistency properties are modelled from the spec where a
claim needs them (see `WenoTables`).
-/

/-- Maximum of a list of rationals, as `numpy.max` of a (nonempty) array;
`0` on the empty list, which never occurs in the embedded code paths. -/
def listMax : List ℚ → ℚ
  | [] => 0
  | x :: t => t.foldr max x

/-- Boundary kinds accepted by `Grid1d.fill_BCs`. -/
inductive BC
  | periodic
  | outflow

/-- The 1-d grid: `nx` physical cells, `ng` ghost cells on each side. -/
structure Grid1d where
  nx : ℕ
  ng : ℕ
  xmin : ℚ
  xmax : ℚ
  bc : BC

/-- Total number of cells, `nx + 2*ng`. -/
def Grid1d.N (g : Grid1d) : ℕ := g.nx + 2 * g.ng

/-- Cell width `dx = (xmax - xmin)/nx`. -/
def Grid1d.dx (g : Grid1d) : ℚ := (g.xmax - g.xmin) / (g.nx : ℚ)

/-- `Grid1d.fill_BCs`: ghost filling.  Periodic copies
`q[:, 0:ng] = q[:, nx:nx+ng]` and `q[:, nx+ng:] = q[:, ng:2*ng]`; outflow
copies the nearest physical cell (`q[:, ng]` on the left, `q[:, ng+nx-1]` on
the right) into every ghost cell.  The functional translation reads the
pre-call array on the right-hand sides, which matches the in-place numpy code
whenever `ng ≤ nx` (the source slices then only read physical cells). -/
def fill_BCs (g : Grid1d) (q : ℕ → ℕ → ℚ) : ℕ → ℕ → ℚ :=
  match g.bc with
  | BC.periodic => fun nv i =>
      if i < g.ng then q nv (i + g.nx)
      else if g.nx + g.ng ≤ i then q nv (i - g.nx)
      else q nv i
  | BC.outflow => fun nv i =>
      if i < g.ng then q nv g.ng
      else if g.nx + g.ng ≤ i then q nv (g.ng + g.nx - 1)
      else q nv i

/-- Modelled from the spec: `weno_coefficients.py` is not under the sources.
The spec describes an immutable table keyed by the order `r`, holding optimal
weights `C[0..r-1]`, reconstruction coefficients `a[r][r]` and
smoothness-indicator coefficients `sigma[r][r][r]`; entries beyond the
order in use are irrelevant, so each table is modelled as total functions. -/
structure WenoTables where
  C : ℕ → ℚ
  a : ℕ → ℕ → ℚ
  sigma : ℕ → ℕ → ℕ → ℚ

/-- `epsilon = 1e-16` in `weno`. -/
def epsW : ℚ := 1 / 10 ^ 16

/-- The smoothness indicator actually used by the code for component `nv`,
stencil `k`, cell `i`.  The `beta` buffer in `weno` is allocated once per call
and `+=`-accumulated inside the loop over components, so the value used for
component `nv` is the sum of the quadratic forms of all components `0..nv`. -/
def betaQ (r : ℕ) (tbl : WenoTables) (q : ℕ → ℕ → ℚ) (nv k i : ℕ) : ℚ :=
  ∑ v ∈ Finset.range (nv + 1), ∑ l ∈ Finset.range r, ∑ m ∈ Finset.range (l + 1),
    tbl.sigma k l m * q v (i + k - l) * q v (i + k - m)

/-- Modelled from the spec: the smoothness indicator as the spec (and claim C1)
state it, the quadratic form of the single component `nv` alone. -/
def betaSpec (r : ℕ) (tbl : WenoTables) (q : ℕ → ℕ → ℚ) (nv k i : ℕ) : ℚ :=
  ∑ l ∈ Finset.range r, ∑ m ∈ Finset.range (l + 1),
    tbl.sigma k l m * q nv (i + k - l) * q nv (i + k - m)

/-- Unnormalized nonlinear weight `alpha[k] = C[k] / (epsilon + beta[k,i]**2)`. -/
def alphaQ (r : ℕ) (tbl : WenoTables) (q : ℕ → ℕ → ℚ) (nv k i : ℕ) : ℚ :=
  tbl.C k / (epsW + betaQ r tbl q nv k i ^ 2)

/-- Candidate-stencil estimate `q_stencils[k] = Σ_l a[k,l]·q[nv, i+k-l]`. -/
def stencilQ (r : ℕ) (tbl : WenoTables) (q : ℕ → ℕ → ℚ) (nv k i : ℕ) : ℚ :=
  ∑ l ∈ Finset.range r, tbl.a k l * q nv (i + k - l)

/-- Normalisation denominator `numpy.sum(alpha)`. -/
def sumAlphaQ (r : ℕ) (tbl : WenoTables) (q : ℕ → ℕ → ℚ) (nv i : ℕ) : ℚ :=
  ∑ k ∈ Finset.range r, alphaQ r tbl q nv k i

/-- The interior value assigned by `weno`: `qL[nv,i] = Σ_k w_k·q_stencils[k]`
with `w = alpha / sum(alpha)`. -/
def wenoVal (r : ℕ) (tbl : WenoTables) (q : ℕ → ℕ → ℚ) (nv i : ℕ) : ℚ :=
  ∑ k ∈ Finset.range r,
    alphaQ r tbl q nv k i / sumAlphaQ r tbl q nv i * stencilQ r tbl q nv k i

/-- `weno(order, q)` on an input of width `Np`: interior indices
`order ≤ i < Np - order` of components `0,1,2` are populated, every other
entry keeps the zero of `numpy.zeros_like(q)`. -/
def wenoQL (r Np : ℕ) (tbl : WenoTables) (q : ℕ → ℕ → ℚ) : ℕ → ℕ → ℚ :=
  fun nv i => if nv < 3 ∧ r ≤ i ∧ i + r < Np then wenoVal r tbl q nv i else 0

/-- Index `i` of a `weno` call on an input of width `Np` is interior
(populated by the loop); otherwise the output entry is a zero placeholder. -/
def wenoInteriorIdx (r Np i : ℕ) : Prop := r ≤ i ∧ i + r < Np

instance (r Np i : ℕ) : Decidable (wenoInteriorIdx r Np i) :=
  decidable_of_iff (r ≤ i ∧ i + r < Np) Iff.rfl

/-- The numerical flux at face `j` in `rk_substep` reads the weno output of
the plus family (input width `N-1`, index `j-1`) and of the reversed minus
family (input width `N`, index `N-1-j`); this face touches a zero boundary
placeholder iff one of the two indices is not interior. -/
def faceUsesPlaceholder (r N j : ℕ) : Prop :=
  ¬ wenoInteriorIdx r (N - 1) (j - 1) ∨ ¬ wenoInteriorIdx r N (N - 1 - j)

instance (r N j : ℕ) : Decidable (faceUsesPlaceholder r N j) :=
  inferInstanceAs (Decidable (_ ∨ _))

/-- The spatial derivative of cell `j` reads the fluxes of faces `j` and
`j+1`. -/
def cellUsesPlaceholder (r N j : ℕ) : Prop :=
  faceUsesPlaceholder r N j ∨ faceUsesPlaceholder r N (j + 1)

instance (r N j : ℕ) : Decidable (cellUsesPlaceholder r N j) :=
  inferInstanceAs (Decidable (_ ∨ _))

/-- Velocity `v = q[1]/q[0]` used by `timestep`. -/
def vAt (q : ℕ → ℕ → ℚ) (i : ℕ) : ℚ := q 1 i / q 0 i

/-- Pressure `p = (gamma-1)*(q[2] - rho*v**2/2)` used by `timestep`. -/
def pAt (gamma : ℚ) (q : ℕ → ℕ → ℚ) (i : ℕ) : ℚ :=
  (gamma - 1) * (q 2 i - q 0 i * vAt q i ^ 2 / 2)

/-- The argument `gamma*p/rho` handed to `numpy.sqrt` in `timestep`; a
negative value makes the sound speed non-real (numpy yields NaN). -/
def csArg (gamma : ℚ) (q : ℕ → ℕ → ℚ) (i : ℕ) : ℚ :=
  gamma * pAt gamma q i / q 0 i

/-- `max_lambda = max(|v| + cs)` over all `N` cells, ghosts included, with
the sound speed `cs = sqrt(gamma*p/rho)` through the abstract `sqrtF`. -/
def maxLambdaQ (sqrtF : ℚ → ℚ) (gamma : ℚ) (N : ℕ) (q : ℕ → ℕ → ℚ) : ℚ :=
  listMax ((List.range N).map fun i => |vAt q i| + sqrtF (csArg gamma q i))

/-- `WENOSimulation.timestep`: `C*dx/max_lambda`. -/
def timestepQ (sqrtF : ℚ → ℚ) (g : Grid1d) (cfl gamma : ℚ) (q : ℕ → ℕ → ℚ) : ℚ :=
  cfl * g.dx / maxLambdaQ sqrtF gamma g.N q

/-- `WENOSimulation.euler_flux`. -/
def euler_flux (gamma : ℚ) (q : ℕ → ℕ → ℚ) : ℕ → ℕ → ℚ := fun nv i =>
  let rho := q 0 i
  let S := q 1 i
  let E := q 2 i
  let v := S / rho
  let p := (gamma - 1) * (E - rho * v ^ 2 / 2)
  match nv with
  | 0 => S
  | 1 => S * v + p
  | 2 => (E + p) * v
  | _ => 0

/-- Lax-Friedrichs splitting parameter `alpha = numpy.max(abs(g.q))`: the
maximum absolute value over all three components and all `N` cells. -/
def splitAlpha (N : ℕ) (q : ℕ → ℕ → ℚ) : ℚ :=
  listMax ((List.range 3).flatMap fun nv => (List.range N).map fun i => |q nv i|)

/-- `fp = (f + alpha*q)/2`. -/
def fpArr (gamma : ℚ) (N : ℕ) (q : ℕ → ℕ → ℚ) : ℕ → ℕ → ℚ := fun nv i =>
  (euler_flux gamma q nv i + splitAlpha N q * q nv i) / 2

/-- `fm = (f - alpha*q)/2`. -/
def fmArr (gamma : ℚ) (N : ℕ) (q : ℕ → ℕ → ℚ) : ℕ → ℕ → ℚ := fun nv i =>
  (euler_flux gamma q nv i - splitAlpha N q * q nv i) / 2

/-- `fpr[:, 1:] = weno(order, fp[:, :-1])`: the plus family, reconstructed
left-to-right on the width-`(N-1)` slice. -/
def fprArr (tbl : WenoTables) (r N : ℕ) (gamma : ℚ) (q : ℕ → ℕ → ℚ) :
    ℕ → ℕ → ℚ := fun nv j =>
  if 1 ≤ j then wenoQL r (N - 1) tbl (fpArr gamma N q) nv (j - 1) else 0

/-- `fml[:, -1::-1] = weno(order, fm[:, -1::-1])`: the minus family,
reconstructed right-to-left by reversing, reconstructing, reversing back. -/
def fmlArr (tbl : WenoTables) (r N : ℕ) (gamma : ℚ) (q : ℕ → ℕ → ℚ) :
    ℕ → ℕ → ℚ := fun nv j =>
  if j < N then wenoQL r N tbl (fun v i => fmArr gamma N q v (N - 1 - i)) nv (N - 1 - j)
  else 0

/-- `flux[:, 1:-1] = fpr[:, 1:-1] + fml[:, 1:-1]`. -/
def fluxArr (tbl : WenoTables) (r N : ℕ) (gamma : ℚ) (q : ℕ → ℕ → ℚ) :
    ℕ → ℕ → ℚ := fun nv j =>
  if 1 ≤ j ∧ j + 1 < N then fprArr tbl r N gamma q nv j + fmlArr tbl r N gamma q nv j
  else 0

/-- `rhs[:, 1:-1] = 1/dx * (flux[:, 1:-1] - flux[:, 2:])`. -/
def rhsArr (tbl : WenoTables) (r N : ℕ) (dx gamma : ℚ) (q : ℕ → ℕ → ℚ) :
    ℕ → ℕ → ℚ := fun nv j =>
  if 1 ≤ j ∧ j + 1 < N then
    1 / dx * (fluxArr tbl r N gamma q nv j - fluxArr tbl r N gamma q nv (j + 1))
  else 0

/-- `WENOSimulation.rk_substep`: fill ghosts, flux, global Lax-Friedrichs
splitting, two one-sided WENO reconstructions, flux-difference derivative. -/
def rk_substep (g : Grid1d) (tbl : WenoTables) (r : ℕ) (gamma : ℚ)
    (q : ℕ → ℕ → ℚ) : ℕ → ℕ → ℚ :=
  rhsArr tbl r g.N g.dx gamma (fill_BCs g q)

/-- Simulation state: current time and the conserved-state buffer. -/
structure SimState where
  t : ℚ
  q : ℕ → ℕ → ℚ

/-- The `dt` actually used by one iteration of `evolve`: `self.timestep()`,
clipped to `tmax - t` when `t + dt > tmax`. -/
def stepDt (sqrtF : ℚ → ℚ) (g : Grid1d) (cfl gamma tmax : ℚ) (t : ℚ)
    (q : ℕ → ℕ → ℚ) : ℚ :=
  let dt := timestepQ sqrtF g cfl gamma q
  if t + dt > tmax then tmax - t else dt

/-- One iteration of the `evolve` loop body: fill ghosts, compute `dt` once
from the (filled) pre-step state, then the four RK4 stages; the canonical
state is replaced by `q_start + (k1 + 2*(k2 + k3) + k4)/6` only at the end. -/
def evolveStep (sqrtF : ℚ → ℚ) (g : Grid1d) (tbl : WenoTables) (r : ℕ)
    (cfl gamma tmax : ℚ) (s : SimState) : SimState :=
  let qb := fill_BCs g s.q
  let dt := stepDt sqrtF g cfl gamma tmax s.t qb
  let k1 := fun nv i => dt * rk_substep g tbl r gamma qb nv i
  let k2 := fun nv i =>
    dt * rk_substep g tbl r gamma (fun v j => qb v j + k1 v j / 2) nv i
  let k3 := fun nv i =>
    dt * rk_substep g tbl r gamma (fun v j => qb v j + k2 v j / 2) nv i
  let k4 := fun nv i =>
    dt * rk_substep g tbl r gamma (fun v j => qb v j + k3 v j) nv i
  ⟨s.t + dt, fun nv i => qb nv i + (k1 nv i + 2 * (k2 nv i + k3 nv i) + k4 nv i) / 6⟩

/-- The guarded loop body: `while self.t < tmax` runs `evolveStep`, else the
state is left unchanged (the loop has exited). -/
def evolveGuard (sqrtF : ℚ → ℚ) (g : Grid1d) (tbl : WenoTables) (r : ℕ)
    (cfl gamma tmax : ℚ) (s : SimState) : SimState :=
  if s.t < tmax then evolveStep sqrtF g tbl r cfl gamma tmax s else s

/-- The time recursion of the `evolve` loop in isolation: starting from
`t = 0.0`, each pass adds `dt = C*dx/max_lambda` clipped at `tmax`, with the
pre-step wave speed of pass `n` supplied by an oracle `L n` (abstracting the
evolving PDE state; `evolve_t_eq_tLoop` below certifies the abstraction). -/
def tLoop (Cdx tmax : ℚ) (L : ℕ → ℚ) : ℕ → ℚ
  | 0 => 0
  | n + 1 =>
    let t := tLoop Cdx tmax L n
    if t < tmax then
      t + (if t + Cdx / L n > tmax then tmax - t else Cdx / L n)
    else t

/-- Total mass over the physical cells, `Σ rho_i · dx` for `i ∈ [ng, ng+nx-1]`. -/
def massQ (g : Grid1d) (q : ℕ → ℕ → ℚ) : ℚ :=
  ∑ i ∈ Finset.range g.nx, q 0 (g.ng + i) * g.dx

/-- Modelled from the spec: a concrete order-3 coefficient table satisfying the
consistency conditions the spec states (optimal weights a convex combination,
stencil rows summing to one, smoothness coefficients vanishing on constants).
Used to instantiate table-dependent counterexamples; the numeric tables of
`weno_coefficients.py` are not part of the sources. -/
def tblSimple : WenoTables :=
  ⟨fun k => if k = 0 then 1 else 0,
   fun _ l => if l = 0 then 1 else 0,
   fun _ _ _ => 0⟩

/-- Modelled from the spec: a concrete order-3 table whose smoothness
coefficients give `beta_k = (q[i+k] - q[i+k-1])^2`, a symmetric quadratic form
vanishing on constants, with convex optimal weights and consistent stencils. -/
def tblFD : WenoTables :=
  ⟨fun k => if k = 0 then 1/4 else if k = 1 then 1/2 else if k = 2 then 1/4 else 0,
   fun _ l => if l = 0 then 1 else 0,
   fun _ l m =>
     if l = 0 ∧ m = 0 then 1 else if l = 1 ∧ m = 0 then -2
     else if l = 1 ∧ m = 1 then 1 else 0⟩

/-- A periodic grid with `nx = 4`, `ng = 3` (so `ng = order` for order 3). -/
def gPer43 : Grid1d := ⟨4, 3, 0, 1, BC.periodic⟩

/-- A spatially uniform conserved state: `rho = 1`, `S = 0`, `E = 1`. -/
def qUnif : ℕ → ℕ → ℚ := fun nv _ => if nv = 0 then 1 else if nv = 2 then 1 else 0

/-- Component 0 a bump at cell 3, component 1 the ramp `i`, component 2 zero. -/
def qRamp : ℕ → ℕ → ℚ
  | 0, i => if i = 3 then 1 else 0
  | 1, i => (i : ℚ)
  | _, _ => 0

/-- Like `qRamp` with component 0 zeroed; components 1 and 2 are unchanged. -/
def qRampZ : ℕ → ℕ → ℚ
  | 0, _ => 0
  | 1, i => (i : ℚ)
  | _, _ => 0

/-- A state with negative internal energy: `rho = 1`, `S = 0`, `E = -1`,
giving negative pressure and a negative `numpy.sqrt` argument in `timestep`. -/
def qNegE : ℕ → ℕ → ℚ := fun nv _ => if nv = 0 then 1 else if nv = 2 then -1 else 0

/-- A periodic grid with `nx = 3`, `ng = 3` (so `ng = order + 1` for order 2). -/
def gPer33 : Grid1d := ⟨3, 3, 0, 1, BC.periodic⟩

/-- An outflow grid with `nx = 2`, `ng = 1`. -/
def gOut21 : Grid1d := ⟨2, 1, 0, 1, BC.outflow⟩

/-- An outflow grid with `nx = 1`, `ng = 1` (so `N = 3`): too narrow for any
order-3 stencil, hence every WENO output entry is a boundary placeholder. -/
def gTiny : Grid1d := ⟨1, 1, 0, 1, BC.outflow⟩

/-- An injective-valued concrete state used to exercise frame properties. -/
def qCells : ℕ → ℕ → ℚ := fun nv i => (nv : ℚ) + 10 * (i : ℚ) + 1

/-! ### Basic lemmas about `listMax`, ghost filling and the WENO kernel -/

theorem self_le_foldr_max (x : ℚ) (t : List ℚ) : x ≤ t.foldr max x := by
  induction t with
  | nil => exact le_refl x
  | cons b t ih => exact le_trans ih (le_max_right b _)

theorem le_foldr_max_of_mem {a : ℚ} (x : ℚ) {t : List ℚ} (h : a ∈ t) :
    a ≤ t.foldr max x := by
  induction t with
  | nil => cases h
  | cons b t ih =>
    rcases List.mem_cons.mp h with h1 | h2
    · exact h1 ▸ le_max_left _ _
    · exact le_trans (ih h2) (le_max_right b _)

theorem foldr_max_mem (x : ℚ) (t : List ℚ) : t.foldr max x = x ∨ t.foldr max x ∈ t := by
  induction t with
  | nil => exact Or.inl rfl
  | cons b t ih =>
    rcases max_choice b (t.foldr max x) with h | h
    · exact Or.inr (by rw [List.foldr_cons, h]; exact List.mem_cons_self b t)
    · rcases ih with h2 | h2
      · exact Or.inl (by rw [List.foldr_cons, h, h2])
      · exact Or.inr (by rw [List.foldr_cons, h]; exact List.mem_cons_of_mem b h2)

theorem le_listMax {a : ℚ} {l : List ℚ} (h : a ∈ l) : a ≤ listMax l := by
  cases l with
  | nil => cases h
  | cons x t =>
    show a ≤ t.foldr max x
    rcases List.mem_cons.mp h with h1 | h2
    · exact h1 ▸ self_le_foldr_max x t
    · exact le_foldr_max_of_mem x h2

theorem listMax_mem {l : List ℚ} (h : l ≠ []) : listMax l ∈ l := by
  cases l with
  | nil => exact absurd rfl h
  | cons x t =>
    show t.foldr max x ∈ x :: t
    rcases foldr_max_mem x t with h1 | h1
    · rw [h1]; exact List.mem_cons_self x t
    · exact List.mem_cons_of_mem x h1

/-- `fill_BCs` is the identity on physical cells, for both boundary kinds. -/
theorem fill_BCs_phys (g : Grid1d) (q : ℕ → ℕ → ℚ) (nv i : ℕ)
    (h1 : g.ng ≤ i) (h2 : i < g.ng + g.nx) : fill_BCs g q nv i = q nv i := by
  rcases hbc : g.bc with _ | _ <;>
    simp only [fill_BCs, hbc] <;>
    rw [if_neg (by omega), if_neg (by omega)]

/-- After a periodic ghost fill with `ng ≤ nx`, the first `2*ng` cells are
`nx`-periodic copies of the cells one period to the right. -/
theorem fill_BCs_periodic (g : Grid1d) (q : ℕ → ℕ → ℚ)
    (hbc : g.bc = BC.periodic) (hnx : g.ng ≤ g.nx) (nv i : ℕ) (hi : i < 2 * g.ng) :
    fill_BCs g q nv (i + g.nx) = fill_BCs g q nv i := by
  simp only [fill_BCs, hbc]
  rcases Nat.lt_or_ge i g.ng with h | h
  · rw [if_neg (by omega), if_neg (by omega), if_pos h]
  · rw [if_neg (by omega), if_pos (by omega), if_neg (by omega), if_neg (by omega)]
    congr 1
    omega

/-- Entries of the `weno` output outside the interior index range keep the
zero of `numpy.zeros_like`: they are the boundary placeholders. -/
theorem wenoQL_placeholder (r Np : ℕ) (tbl : WenoTables) (q : ℕ → ℕ → ℚ)
    (nv i : ℕ) (h : ¬ wenoInteriorIdx r Np i) : wenoQL r Np tbl q nv i = 0 := by
  unfold wenoInteriorIdx at h
  unfold wenoQL
  rw [if_neg (by tauto)]

/-- Interior entries of the `weno` output are given by `wenoVal`. -/
theorem wenoQL_interior (r Np : ℕ) (tbl : WenoTables) (q : ℕ → ℕ → ℚ)
    (nv i : ℕ) (hnv : nv < 3) (h : wenoInteriorIdx r Np i) :
    wenoQL r Np tbl q nv i = wenoVal r tbl q nv i := by
  unfold wenoInteriorIdx at h
  unfold wenoQL
  rw [if_pos ⟨hnv, h⟩]

theorem betaQ_congr (r : ℕ) (tbl : WenoTables) (q q' : ℕ → ℕ → ℚ)
    (nv k i i' : ℕ) (hk : k < r)
    (h : ∀ v k2 l, k2 < r → l < r → q v (i + k2 - l) = q' v (i' + k2 - l)) :
    betaQ r tbl q nv k i = betaQ r tbl q' nv k i' := by
  unfold betaQ
  refine Finset.sum_congr rfl fun v _ => ?_
  refine Finset.sum_congr rfl fun l hl => ?_
  refine Finset.sum_congr rfl fun m hm => ?_
  rw [h v k l hk (Finset.mem_range.mp hl),
    h v k m hk (by have := Finset.mem_range.mp hm; have := Finset.mem_range.mp hl; omega)]

theorem stencilQ_congr (r : ℕ) (tbl : WenoTables) (q q' : ℕ → ℕ → ℚ)
    (nv k i i' : ℕ) (hk : k < r)
    (h : ∀ v k2 l, k2 < r → l < r → q v (i + k2 - l) = q' v (i' + k2 - l)) :
    stencilQ r tbl q nv k i = stencilQ r tbl q' nv k i' := by
  unfold stencilQ
  refine Finset.sum_congr rfl fun l hl => ?_
  rw [h nv k l hk (Finset.mem_range.mp hl)]

/-- The interior WENO value at `i` depends only on the input values at the
window `i - (r-1) .. i + (r-1)` (of all components, through the shared
accumulated `beta` buffer): equal windows give equal outputs. -/
theorem wenoVal_congr (r : ℕ) (tbl : WenoTables) (q q' : ℕ → ℕ → ℚ)
    (nv i i' : ℕ)
    (h : ∀ v k2 l, k2 < r → l < r → q v (i + k2 - l) = q' v (i' + k2 - l)) :
    wenoVal r tbl q nv i = wenoVal r tbl q' nv i' := by
  have hα : ∀ k, k < r → alphaQ r tbl q nv k i = alphaQ r tbl q' nv k i' := by
    intro k hk
    unfold alphaQ
    rw [betaQ_congr r tbl q q' nv k i i' hk h]
  have hs : sumAlphaQ r tbl q nv i = sumAlphaQ r tbl q' nv i' := by
    unfold sumAlphaQ
    exact Finset.sum_congr rfl fun k hk => hα k (Finset.mem_range.mp hk)
  unfold wenoVal
  refine Finset.sum_congr rfl fun k hk => ?_
  rw [hα k (Finset.mem_range.mp hk), hs,
    stencilQ_congr r tbl q q' nv k i i' (Finset.mem_range.mp hk) h]

/-! ### Periodicity of the recombined flux and mass conservation -/

theorem euler_flux_congr (gamma : ℚ) (q : ℕ → ℕ → ℚ) (nv i i' : ℕ)
    (h : ∀ c, q c i = q c i') : euler_flux gamma q nv i = euler_flux gamma q nv i' := by
  rcases nv with _ | _ | _ | n <;>
    simp only [euler_flux, h]

theorem fpArr_congr (gamma : ℚ) (N : ℕ) (q : ℕ → ℕ → ℚ) (nv i i' : ℕ)
    (h : ∀ c, q c i = q c i') : fpArr gamma N q nv i = fpArr gamma N q nv i' := by
  unfold fpArr
  rw [euler_flux_congr gamma q nv i i' h, h nv]

theorem fmArr_congr (gamma : ℚ) (N : ℕ) (q : ℕ → ℕ → ℚ) (nv i i' : ℕ)
    (h : ∀ c, q c i = q c i') : fmArr gamma N q nv i = fmArr gamma N q nv i' := by
  unfold fmArr
  rw [euler_flux_congr gamma q nv i i' h, h nv]

theorem wenoQL_big_nv (r Np : ℕ) (tbl : WenoTables) (q : ℕ → ℕ → ℚ)
    (nv i : ℕ) (h : 3 ≤ nv) : wenoQL r Np tbl q nv i = 0 := by
  unfold wenoQL
  rw [if_neg (by omega)]

/-- Under periodic boundaries with `ng ≥ r + 1` and `ng ≤ nx`, the recombined
numerical flux at the leftmost physical face `ng` equals the one at the
rightmost physical face `ng + nx`: both faces see fully periodic stencils. -/
theorem fluxArr_periodic (g : Grid1d) (tbl : WenoTables) (r : ℕ) (gamma : ℚ)
    (q : ℕ → ℕ → ℚ) (hbc : g.bc = BC.periodic) (hr : 1 ≤ r) (hng : r + 1 ≤ g.ng)
    (hnx : g.ng ≤ g.nx) (nv : ℕ) :
    fluxArr tbl r g.N gamma (fill_BCs g q) nv g.ng
      = fluxArr tbl r g.N gamma (fill_BCs g q) nv (g.ng + g.nx) := by
  have hN : g.N = g.nx + 2 * g.ng := rfl
  set qf := fill_BCs g q with hqf
  have hper : ∀ c i, i < 2 * g.ng → qf c (i + g.nx) = qf c i :=
    fun c i hi => fill_BCs_periodic g q hbc hnx c i hi
  rcases Nat.lt_or_ge nv 3 with hnv | hnv
  · -- the real case: components 0,1,2
    unfold fluxArr
    rw [if_pos (by omega), if_pos (by omega)]
    have hfpr : fprArr tbl r g.N gamma qf nv g.ng
        = fprArr tbl r g.N gamma qf nv (g.ng + g.nx) := by
      unfold fprArr
      rw [if_pos (by omega), if_pos (by omega),
        wenoQL_interior r (g.N - 1) tbl _ nv (g.ng - 1) hnv (by unfold wenoInteriorIdx; omega),
        wenoQL_interior r (g.N - 1) tbl _ nv (g.ng + g.nx - 1) hnv
          (by unfold wenoInteriorIdx; omega)]
      refine wenoVal_congr r tbl _ _ nv (g.ng - 1) (g.ng + g.nx - 1) ?_
      intro v k l hk hl
      have hidx : g.ng + g.nx - 1 + k - l = g.ng - 1 + k - l + g.nx := by omega
      rw [hidx]
      exact (fpArr_congr gamma g.N qf v _ _
        (fun c => hper c (g.ng - 1 + k - l) (by omega))).symm
    have hfml : fmlArr tbl r g.N gamma qf nv g.ng
        = fmlArr tbl r g.N gamma qf nv (g.ng + g.nx) := by
      unfold fmlArr
      rw [if_pos (by omega), if_pos (by omega)]
      have e0 : g.N - 1 - (g.ng + g.nx) = g.ng - 1 := by omega
      rw [e0,
        wenoQL_interior r g.N tbl _ nv (g.N - 1 - g.ng) hnv (by unfold wenoInteriorIdx; omega),
        wenoQL_interior r g.N tbl _ nv (g.ng - 1) hnv (by unfold wenoInteriorIdx; omega)]
      refine wenoVal_congr r tbl _ _ nv (g.N - 1 - g.ng) (g.ng - 1) ?_
      intro v k l hk hl
      have e1 : g.N - 1 - (g.N - 1 - g.ng + k - l) = g.ng + l - k := by omega
      have e2 : g.N - 1 - (g.ng - 1 + k - l) = g.ng + l - k + g.nx := by omega
      rw [e1, e2]
      exact (fmArr_congr gamma g.N qf v _ _
        (fun c => hper c (g.ng + l - k) (by omega))).symm
    rw [hfpr, hfml]
  · -- components beyond 2 are never populated by weno
    have hz : ∀ j, fluxArr tbl r g.N gamma qf nv j = 0 := by
      intro j
      unfold fluxArr fprArr fmlArr
      rw [wenoQL_big_nv _ _ _ _ _ _ hnv, wenoQL_big_nv _ _ _ _ _ _ hnv]
      simp
    rw [hz, hz]

/-- The physical-cell total of one RHS evaluation vanishes under periodic
boundaries with `ng ≥ r + 1`: the flux-difference form telescopes and the two
boundary fluxes agree. -/
theorem substep_mass_sum (g : Grid1d) (tbl : WenoTables) (r : ℕ) (gamma : ℚ)
    (q : ℕ → ℕ → ℚ) (hbc : g.bc = BC.periodic) (hr : 1 ≤ r) (hng : r + 1 ≤ g.ng)
    (hnx : g.ng ≤ g.nx) :
    ∑ j ∈ Finset.range g.nx, rk_substep g tbl r gamma q 0 (g.ng + j) = 0 := by
  have hN : g.N = g.nx + 2 * g.ng := rfl
  have hstep : ∀ j ∈ Finset.range g.nx,
      rk_substep g tbl r gamma q 0 (g.ng + j)
        = 1 / g.dx * (fluxArr tbl r g.N gamma (fill_BCs g q) 0 (g.ng + j)
            - fluxArr tbl r g.N gamma (fill_BCs g q) 0 (g.ng + j + 1)) := by
    intro j hj
    have hj' := Finset.mem_range.mp hj
    unfold rk_substep rhsArr
    rw [if_pos (by omega)]
  rw [Finset.sum_congr rfl hstep, ← Finset.mul_sum]
  have htel : ∑ j ∈ Finset.range g.nx,
      (fluxArr tbl r g.N gamma (fill_BCs g q) 0 (g.ng + j)
        - fluxArr tbl r g.N gamma (fill_BCs g q) 0 (g.ng + j + 1))
      = fluxArr tbl r g.N gamma (fill_BCs g q) 0 (g.ng + 0)
        - fluxArr tbl r g.N gamma (fill_BCs g q) 0 (g.ng + g.nx) :=
    Finset.sum_range_sub' (fun j => fluxArr tbl r g.N gamma (fill_BCs g q) 0 (g.ng + j)) g.nx
  rw [htel]
  rw [show g.ng + 0 = g.ng from rfl,
    fluxArr_periodic g tbl r gamma q hbc hr hng hnx 0, sub_self, mul_zero]

/-! ### The evolve loop: step equations, CFL clipping, mass conservation -/

/-- The time component of one loop pass: `self.t += dt` with the clipped `dt`
computed once from the ghost-filled pre-step state. -/
theorem evolveStep_t (sqrtF : ℚ → ℚ) (g : Grid1d) (tbl : WenoTables) (r : ℕ)
    (cfl gamma tmax : ℚ) (s : SimState) :
    (evolveStep sqrtF g tbl r cfl gamma tmax s).t
      = s.t + stepDt sqrtF g cfl gamma tmax s.t (fill_BCs g s.q) := rfl

/-- The state component of one loop pass, with the four stages spelled out. -/
theorem evolveStep_q (sqrtF : ℚ → ℚ) (g : Grid1d) (tbl : WenoTables) (r : ℕ)
    (cfl gamma tmax : ℚ) (s : SimState) :
    (evolveStep sqrtF g tbl r cfl gamma tmax s).q = fun nv i =>
      fill_BCs g s.q nv i +
        (stepDt sqrtF g cfl gamma tmax s.t (fill_BCs g s.q) *
            rk_substep g tbl r gamma (fill_BCs g s.q) nv i
          + 2 * (stepDt sqrtF g cfl gamma tmax s.t (fill_BCs g s.q) *
                rk_substep g tbl r gamma
                  (fun v j => fill_BCs g s.q v j +
                    stepDt sqrtF g cfl gamma tmax s.t (fill_BCs g s.q) *
                      rk_substep g tbl r gamma (fill_BCs g s.q) v j / 2) nv i
              + stepDt sqrtF g cfl gamma tmax s.t (fill_BCs g s.q) *
                rk_substep g tbl r gamma
                  (fun v j => fill_BCs g s.q v j +
                    stepDt sqrtF g cfl gamma tmax s.t (fill_BCs g s.q) *
                      rk_substep g tbl r gamma
                        (fun v2 j2 => fill_BCs g s.q v2 j2 +
                          stepDt sqrtF g cfl gamma tmax s.t (fill_BCs g s.q) *
                            rk_substep g tbl r gamma (fill_BCs g s.q) v2 j2 / 2) v j / 2)
                  nv i)
          + stepDt sqrtF g cfl gamma tmax s.t (fill_BCs g s.q) *
            rk_substep g tbl r gamma
              (fun v j => fill_BCs g s.q v j +
                stepDt sqrtF g cfl gamma tmax s.t (fill_BCs g s.q) *
                  rk_substep g tbl r gamma
                    (fun v2 j2 => fill_BCs g s.q v2 j2 +
                      stepDt sqrtF g cfl gamma tmax s.t (fill_BCs g s.q) *
                        rk_substep g tbl r gamma
                          (fun v3 j3 => fill_BCs g s.q v3 j3 +
                            stepDt sqrtF g cfl gamma tmax s.t (fill_BCs g s.q) *
                              rk_substep g tbl r gamma (fill_BCs g s.q) v3 j3 / 2) v2 j2 / 2)
                    v j) nv i) / 6 := rfl

/-- `dt` never exceeds the raw CFL timestep: clipping only shrinks it. -/
theorem stepDt_le (sqrtF : ℚ → ℚ) (g : Grid1d) (cfl gamma tmax t : ℚ)
    (q : ℕ → ℕ → ℚ) :
    stepDt sqrtF g cfl gamma tmax t q ≤ timestepQ sqrtF g cfl gamma q := by
  simp only [stepDt]
  split_ifs with h
  · linarith
  · exact le_refl _

/-- `t + dt` never exceeds `tmax`. -/
theorem stepDt_no_overshoot (sqrtF : ℚ → ℚ) (g : Grid1d) (cfl gamma tmax t : ℚ)
    (q : ℕ → ℕ → ℚ) : t + stepDt sqrtF g cfl gamma tmax t q ≤ tmax := by
  simp only [stepDt]
  split_ifs with h <;> linarith

/-- In the unclipped branch `dt` is exactly the CFL timestep. -/
theorem stepDt_eq_of_no_clip (sqrtF : ℚ → ℚ) (g : Grid1d) (cfl gamma tmax t : ℚ)
    (q : ℕ → ℕ → ℚ) (h : ¬ t + timestepQ sqrtF g cfl gamma q > tmax) :
    stepDt sqrtF g cfl gamma tmax t q = timestepQ sqrtF g cfl gamma q := by
  simp only [stepDt]
  exact if_neg h

/-- In the clipped branch `t + dt = tmax` exactly. -/
theorem stepDt_eq_of_clip (sqrtF : ℚ → ℚ) (g : Grid1d) (cfl gamma tmax t : ℚ)
    (q : ℕ → ℕ → ℚ) (h : t + timestepQ sqrtF g cfl gamma q > tmax) :
    stepDt sqrtF g cfl gamma tmax t q = tmax - t := by
  simp only [stepDt]
  exact if_pos h

theorem sum_substep_mul (g : Grid1d) (tbl : WenoTables) (r : ℕ) (gamma : ℚ)
    (q : ℕ → ℕ → ℚ) (c : ℚ) (hbc : g.bc = BC.periodic) (hr : 1 ≤ r)
    (hng : r + 1 ≤ g.ng) (hnx : g.ng ≤ g.nx) :
    ∑ j ∈ Finset.range g.nx, c * rk_substep g tbl r gamma q 0 (g.ng + j) = 0 := by
  rw [← Finset.mul_sum, substep_mass_sum g tbl r gamma q hbc hr hng hnx, mul_zero]

/-- One full RK4 step conserves the physical-cell mass total: the four stage
derivatives each have zero mass total, whatever the stage states are. -/
theorem mass_step (g : Grid1d) (tbl : WenoTables) (r : ℕ) (gamma dt : ℚ)
    (qb q1 q2 q3 : ℕ → ℕ → ℚ) (hbc : g.bc = BC.periodic) (hr : 1 ≤ r)
    (hng : r + 1 ≤ g.ng) (hnx : g.ng ≤ g.nx) :
    ∑ i ∈ Finset.range g.nx,
      (qb 0 (g.ng + i) +
        (dt * rk_substep g tbl r gamma qb 0 (g.ng + i)
          + 2 * (dt * rk_substep g tbl r gamma q1 0 (g.ng + i)
              + dt * rk_substep g tbl r gamma q2 0 (g.ng + i))
          + dt * rk_substep g tbl r gamma q3 0 (g.ng + i)) / 6) * g.dx
      = ∑ i ∈ Finset.range g.nx, qb 0 (g.ng + i) * g.dx := by
  have hsplit : ∀ i ∈ Finset.range g.nx,
      (qb 0 (g.ng + i) +
        (dt * rk_substep g tbl r gamma qb 0 (g.ng + i)
          + 2 * (dt * rk_substep g tbl r gamma q1 0 (g.ng + i)
              + dt * rk_substep g tbl r gamma q2 0 (g.ng + i))
          + dt * rk_substep g tbl r gamma q3 0 (g.ng + i)) / 6) * g.dx
      = qb 0 (g.ng + i) * g.dx
        + ((dt * g.dx / 6) * rk_substep g tbl r gamma qb 0 (g.ng + i)
          + ((dt * g.dx / 3) * rk_substep g tbl r gamma q1 0 (g.ng + i)
            + ((dt * g.dx / 3) * rk_substep g tbl r gamma q2 0 (g.ng + i)
              + (dt * g.dx / 6) * rk_substep g tbl r gamma q3 0 (g.ng + i)))) :=
    fun i _ => by ring
  rw [Finset.sum_congr rfl hsplit]
  rw [Finset.sum_add_distrib, Finset.sum_add_distrib, Finset.sum_add_distrib,
    Finset.sum_add_distrib]
  rw [sum_substep_mul g tbl r gamma qb _ hbc hr hng hnx,
    sum_substep_mul g tbl r gamma q1 _ hbc hr hng hnx,
    sum_substep_mul g tbl r gamma q2 _ hbc hr hng hnx,
    sum_substep_mul g tbl r gamma q3 _ hbc hr hng hnx]
  ring

theorem mass_evolveStep (sqrtF : ℚ → ℚ) (g : Grid1d) (tbl : WenoTables) (r : ℕ)
    (cfl gamma tmax : ℚ) (s : SimState) (hbc : g.bc = BC.periodic) (hr : 1 ≤ r)
    (hng : r + 1 ≤ g.ng) (hnx : g.ng ≤ g.nx) :
    massQ g (evolveStep sqrtF g tbl r cfl gamma tmax s).q = massQ g s.q := by
  rw [evolveStep_q]
  unfold massQ
  simp only
  rw [mass_step g tbl r gamma _ _ _ _ _ hbc hr hng hnx]
  refine Finset.sum_congr rfl fun i hi => ?_
  rw [fill_BCs_phys g s.q 0 (g.ng + i) (by omega)
    (by have := Finset.mem_range.mp hi; omega)]

theorem mass_evolveGuard_iterate (sqrtF : ℚ → ℚ) (g : Grid1d) (tbl : WenoTables)
    (r : ℕ) (cfl gamma tmax : ℚ) (s : SimState) (hbc : g.bc = BC.periodic)
    (hr : 1 ≤ r) (hng : r + 1 ≤ g.ng) (hnx : g.ng ≤ g.nx) (n : ℕ) :
    massQ g ((evolveGuard sqrtF g tbl r cfl gamma tmax)^[n] s).q = massQ g s.q := by
  induction n with
  | zero => rfl
  | succ n ih =>
    rw [Function.iterate_succ_apply']
    unfold evolveGuard
    split
    · rw [mass_evolveStep sqrtF g tbl r cfl gamma tmax _ hbc hr hng hnx]
      exact ih
    · exact ih

/-- C9 (amended): with the per-step pre-step wave speeds strictly positive
AND bounded above by some `M`, the evolve loop reaches `t = tmax` exactly and
stays there. -/
theorem evolve_terminates_of_bounded_wave_speed (sqrtF : ℚ → ℚ) (g : Grid1d)
    (tbl : WenoTables) (r : ℕ) (cfl gamma tmax M : ℚ) (s : SimState)
    (h0 : s.t = 0) (htmax : 0 < tmax) (hCdx : 0 < cfl * g.dx)
    (hL : ∀ n, ((evolveGuard sqrtF g tbl r cfl gamma tmax)^[n] s).t < tmax →
      0 < maxLambdaQ sqrtF gamma g.N
          (fill_BCs g ((evolveGuard sqrtF g tbl r cfl gamma tmax)^[n] s).q) ∧
        maxLambdaQ sqrtF gamma g.N
          (fill_BCs g ((evolveGuard sqrtF g tbl r cfl gamma tmax)^[n] s).q) ≤ M) :
    ∃ n, ∀ m, n ≤ m →
      ((evolveGuard sqrtF g tbl r cfl gamma tmax)^[m] s).t = tmax := by
  set E := evolveGuard sqrtF g tbl r cfl gamma tmax with hE
  have hTlt : ∀ n, (E^[n] s).t < tmax → (E^[n+1] s).t
      = (E^[n] s).t + stepDt sqrtF g cfl gamma tmax (E^[n] s).t
          (fill_BCs g (E^[n] s).q) := by
    intro n hn
    rw [Function.iterate_succ_apply']
    show (if (E^[n] s).t < tmax then
        evolveStep sqrtF g tbl r cfl gamma tmax (E^[n] s) else E^[n] s).t = _
    rw [if_pos hn]
    exact evolveStep_t sqrtF g tbl r cfl gamma tmax (E^[n] s)
  have hTge : ∀ n, ¬ (E^[n] s).t < tmax → (E^[n+1] s).t = (E^[n] s).t := by
    intro n hn
    rw [Function.iterate_succ_apply']
    show (if (E^[n] s).t < tmax then
        evolveStep sqrtF g tbl r cfl gamma tmax (E^[n] s) else E^[n] s).t = _
    rw [if_neg hn]
  have hub : ∀ n, (E^[n] s).t ≤ tmax := by
    intro n
    induction n with
    | zero => rw [Function.iterate_zero_apply, h0]; exact le_of_lt htmax
    | succ n ih =>
      by_cases h : (E^[n] s).t < tmax
      · rw [hTlt n h]
        exact stepDt_no_overshoot sqrtF g cfl gamma tmax _ _
      · rw [hTge n h]
        exact ih
  have hM : 0 < M := by
    have h00 : (E^[0] s).t < tmax := by rw [Function.iterate_zero_apply, h0]; exact htmax
    exact lt_of_lt_of_le (hL 0 h00).1 (hL 0 h00).2
  have hdel : 0 < cfl * g.dx / M := div_pos hCdx hM
  have hprog : ∀ n, (E^[n+1] s).t < tmax →
      (E^[n] s).t + cfl * g.dx / M ≤ (E^[n+1] s).t := by
    intro n hn1
    have hn : (E^[n] s).t < tmax := by
      by_contra h
      rw [hTge n h] at hn1
      exact h hn1
    rw [hTlt n hn] at hn1 ⊢
    by_cases hc : (E^[n] s).t
        + timestepQ sqrtF g cfl gamma (fill_BCs g (E^[n] s).q) > tmax
    · rw [stepDt_eq_of_clip sqrtF g cfl gamma tmax _ _ hc] at hn1
      linarith
    · rw [stepDt_eq_of_no_clip sqrtF g cfl gamma tmax _ _ hc]
      have hb := hL n hn
      have hdle : cfl * g.dx / M
          ≤ timestepQ sqrtF g cfl gamma (fill_BCs g (E^[n] s).q) := by
        unfold timestepQ
        gcongr
        · exact hb.1
        · exact hb.2
      linarith
  have hlower : ∀ n, (∃ k, k ≤ n ∧ (E^[k] s).t = tmax)
      ∨ (n : ℚ) * (cfl * g.dx / M) ≤ (E^[n] s).t := by
    intro n
    induction n with
    | zero =>
      right
      rw [Function.iterate_zero_apply, h0]
      simp
    | succ n ih =>
      rcases ih with ⟨k, hk, hkt⟩ | hge
      · exact Or.inl ⟨k, Nat.le_succ_of_le hk, hkt⟩
      · by_cases he : (E^[n+1] s).t = tmax
        · exact Or.inl ⟨n + 1, le_refl _, he⟩
        · right
          have h1 : (E^[n+1] s).t < tmax := lt_of_le_of_ne (hub (n+1)) he
          have h2 := hprog n h1
          push_cast
          linarith
  obtain ⟨n0, hn0⟩ := exists_nat_gt (tmax / (cfl * g.dx / M))
  have hn0' : tmax < (n0 : ℚ) * (cfl * g.dx / M) := by
    rw [div_lt_iff₀ hdel] at hn0
    linarith
  rcases hlower n0 with ⟨k, hk, hkt⟩ | hge
  · refine ⟨k, ?_⟩
    have hpers : ∀ j, (E^[k + j] s).t = tmax := by
      intro j
      induction j with
      | zero => exact hkt
      | succ j ihj =>
        have hnot : ¬ (E^[k + j] s).t < tmax := by rw [ihj]; exact lt_irrefl _
        rw [show k + (j + 1) = (k + j) + 1 from rfl, hTge _ hnot, ihj]
    intro m hm
    rw [show m = k + (m - k) by omega]
    exact hpers _
  · exact absurd (le_trans hge (hub n0)) (not_le.mpr hn0')

/-- The abstraction certificate for `tLoop`: along any actual run of the
guarded evolve loop, the simulation time coincides with `tLoop` driven by the
run's own pre-step wave speeds. -/
theorem evolve_t_eq_tLoop (sqrtF : ℚ → ℚ) (g : Grid1d) (tbl : WenoTables)
    (r : ℕ) (cfl gamma tmax : ℚ) (s : SimState) (h0 : s.t = 0) (n : ℕ) :
    ((evolveGuard sqrtF g tbl r cfl gamma tmax)^[n] s).t
      = tLoop (cfl * g.dx) tmax
          (fun k => maxLambdaQ sqrtF gamma g.N
            (fill_BCs g ((evolveGuard sqrtF g tbl r cfl gamma tmax)^[k] s).q)) n := by
  set E := evolveGuard sqrtF g tbl r cfl gamma tmax with hE
  induction n with
  | zero => simpa [tLoop] using h0
  | succ n ih =>
    rw [Function.iterate_succ_apply']
    show (if (E^[n] s).t < tmax then
        evolveStep sqrtF g tbl r cfl gamma tmax (E^[n] s) else E^[n] s).t = _
    simp only [tLoop]
    rw [← ih]
    by_cases h : (E^[n] s).t < tmax
    · rw [if_pos h, if_pos h,
        evolveStep_t sqrtF g tbl r cfl gamma tmax (E^[n] s)]
      simp only [stepDt, timestepQ]
    · rw [if_neg h, if_neg h]

theorem tLoop_pow_formula (n : ℕ) :
    tLoop 1 1 (fun k => (2:ℚ) ^ (k + 1)) n = 1 - (1/2:ℚ) ^ n := by
  induction n with
  | zero => simp [tLoop]
  | succ n ih =>
    have hpow : (0:ℚ) < (1/2:ℚ) ^ n := pow_pos (by norm_num) n
    have e1 : (1:ℚ) / (2:ℚ) ^ (n + 1) = (1/2:ℚ) ^ (n + 1) := (one_div_pow 2 (n+1)).symm
    have e2 : (1/2:ℚ) ^ (n + 1) = (1/2:ℚ) ^ n / 2 := by rw [pow_succ]; ring
    simp only [tLoop]
    rw [ih, if_pos (by linarith), if_neg (by rw [e1, e2]; linarith)]
    rw [e1, e2]
    ring

/-- C5: for every order `r ∈ {3,4,5,6}` and any coefficient table satisfying
the spec's consistency conditions, the WENO reconstruction of a spatially
constant field of value `v` returns `v` at every valid interior index: all
smoothness indicators vanish, the normalized weights collapse to the optimal
linear weights `C`, and the stencil estimates all equal `v`. -/
theorem weno_constant_reconstruction (r Np : ℕ) (tbl : WenoTables) (v : ℚ)
    (nv i : ℕ) (hr3 : 3 ≤ r) (hr6 : r ≤ 6)
    (hC : ∑ k ∈ Finset.range r, tbl.C k = 1)
    (ha : ∀ k, k < r → ∑ l ∈ Finset.range r, tbl.a k l = 1)
    (hs : ∀ k, k < r →
      ∑ l ∈ Finset.range r, ∑ m ∈ Finset.range (l + 1), tbl.sigma k l m = 0)
    (hnv : nv < 3) (hi : r ≤ i) (hiN : i + r < Np) :
    wenoQL r Np tbl (fun _ _ => v) nv i = v := by
  rw [wenoQL_interior r Np tbl _ nv i hnv ⟨hi, hiN⟩]
  have he : epsW ≠ 0 := by norm_num [epsW]
  have hbeta : ∀ k, k < r → betaQ r tbl (fun _ _ => v) nv k i = 0 := by
    intro k hk
    unfold betaQ
    show (∑ w ∈ Finset.range (nv + 1), ∑ l ∈ Finset.range r,
      ∑ m ∈ Finset.range (l + 1), tbl.sigma k l m * v * v) = 0
    have inner : (∑ l ∈ Finset.range r, ∑ m ∈ Finset.range (l + 1),
        tbl.sigma k l m * v * v) = 0 := by
      have hfac : (∑ l ∈ Finset.range r, ∑ m ∈ Finset.range (l + 1),
          tbl.sigma k l m * v * v)
          = (∑ l ∈ Finset.range r, ∑ m ∈ Finset.range (l + 1),
              tbl.sigma k l m) * (v * v) := by
        rw [Finset.sum_mul]
        exact Finset.sum_congr rfl fun l _ => by
          rw [Finset.sum_mul]
          exact Finset.sum_congr rfl fun m _ => by ring
      rw [hfac, hs k hk, zero_mul]
    refine Eq.trans (Finset.sum_congr rfl fun w _ => inner) ?_
    exact Finset.sum_const_zero
  have halpha : ∀ k, k < r → alphaQ r tbl (fun _ _ => v) nv k i = tbl.C k / epsW := by
    intro k hk
    unfold alphaQ
    rw [hbeta k hk]
    norm_num
  have hsum : sumAlphaQ r tbl (fun _ _ => v) nv i = 1 / epsW := by
    unfold sumAlphaQ
    rw [Finset.sum_congr rfl fun k hk => halpha k (Finset.mem_range.mp hk),
      ← Finset.sum_div, hC]
  have hst : ∀ k, k < r → stencilQ r tbl (fun _ _ => v) nv k i = v := by
    intro k hk
    unfold stencilQ
    show (∑ l ∈ Finset.range r, tbl.a k l * v) = v
    rw [← Finset.sum_mul, ha k hk, one_mul]
  have hterm : ∀ k ∈ Finset.range r,
      alphaQ r tbl (fun _ _ => v) nv k i / sumAlphaQ r tbl (fun _ _ => v) nv i
        * stencilQ r tbl (fun _ _ => v) nv k i = tbl.C k * v := by
    intro k hk
    rw [halpha k (Finset.mem_range.mp hk), hsum, hst k (Finset.mem_range.mp hk)]
    field_simp
  unfold wenoVal
  rw [Finset.sum_congr rfl hterm, ← Finset.sum_mul, hC, one_mul]

/-! ### Claim theorems -/

/-- C1 (code evaluation at the failing input): the `beta` buffer is shared
across the component loop, so the smoothness indicator used for component 1
is the sum of the quadratic forms of components 0 and 1 (structural identity,
last conjunct generalizes it), not component 1's own quadratic form; changing
only component 0 changes component 1's reconstruction. -/
theorem weno_beta_accumulates_across_components :
    betaQ 3 tblFD qRamp 1 0 3 = 2 ∧
    betaSpec 3 tblFD qRamp 1 0 3 = 1 ∧
    (∀ i, qRamp 1 i = qRampZ 1 i ∧ qRamp 2 i = qRampZ 2 i) ∧
    wenoQL 3 7 tblFD qRamp 1 3 ≠ wenoQL 3 7 tblFD qRampZ 1 3 ∧
    ∀ (r : ℕ) (tbl : WenoTables) (q : ℕ → ℕ → ℚ) (nv k i : ℕ),
      betaQ r tbl q nv k i = ∑ v ∈ Finset.range (nv + 1), betaSpec r tbl q v k i := by
  refine ⟨?_, ?_, fun i => ⟨rfl, rfl⟩, ?_, fun r tbl q nv k i => rfl⟩ <;>
    norm_num [betaQ, betaSpec, wenoQL, wenoVal, alphaQ, stencilQ, sumAlphaQ, epsW,
      tblFD, qRamp, qRampZ, Finset.sum_range_succ]

/-- C2 (amended): with `ng ≥ order + 1` (instead of the claimed `ng ≥ order`),
no face flux entering any physical cell's spatial derivative reads a zero
boundary placeholder of either one-sided WENO reconstruction. -/
theorem no_placeholder_flux_of_ng_gt_order (r ng nx j : ℕ) (hr : 1 ≤ r)
    (hng : r + 1 ≤ ng) (hj1 : ng ≤ j) (hj2 : j < ng + nx) :
    ¬ cellUsesPlaceholder r (nx + 2 * ng) j := by
  unfold cellUsesPlaceholder faceUsesPlaceholder wenoInteriorIdx
  omega

/-- Witness for the amended C2 at `order = 3`, `ng = 4`, `nx = 4`, cell 4. -/
theorem no_placeholder_flux_witness : ¬ cellUsesPlaceholder 3 (4 + 2 * 4) 4 :=
  no_placeholder_flux_of_ng_gt_order 3 4 4 4 (by decide) (by decide) (by decide)
    (by decide)

/-- C2 counterexample: at `order = 3`, `ng = 3` (satisfying the claimed
`ng ≥ order`), `nx = 4`, the leftmost physical cell `j = 3` reads, through the
flux of its left face, the plus-family WENO output at index 2 of a width-9
input, which is a zero boundary placeholder. -/
theorem ghost_equal_order_uses_placeholder :
    3 ≤ (3:ℕ) ∧ ((3:ℕ) ≤ 3 ∧ (3:ℕ) < 3 + 4) ∧
      cellUsesPlaceholder 3 (4 + 2 * 3) 3 := by decide

/-- C3 (code evaluation at the failing input): a state with `rho = 1`,
`S = 0`, `E = -1` has negative pressure and a negative `numpy.sqrt` argument
in `timestep`, yet the embedded evolve loop body is a total function that
simply advances the time: the code has no failure path at all. -/
theorem invalid_state_negative_sound_speed_arg :
    pAt (7/5) qNegE 0 < 0 ∧ csArg (7/5) qNegE 0 < 0 ∧
    (evolveGuard (fun x => x) gTiny tblSimple 3 (1/2) (7/5) 1 ⟨0, qNegE⟩).t
      = 0 + stepDt (fun x => x) gTiny (1/2) (7/5) 1 0 (fill_BCs gTiny qNegE) := by
  refine ⟨by norm_num [pAt, vAt, qNegE], by norm_num [csArg, pAt, vAt, qNegE], ?_⟩
  unfold evolveGuard
  rw [if_pos (show ((⟨0, qNegE⟩ : SimState)).t < 1 by norm_num)]
  exact evolveStep_t (fun x => x) gTiny tblSimple 3 (1/2) (7/5) 1 ⟨0, qNegE⟩

/-- C4 (amended): under periodic boundaries with `ng ≥ order + 1` (and
`ng ≤ nx`), the physical-cell mass total `Σ rho·dx` is unchanged by one full
RK4 step, by any number of loop passes, and the recombined flux at the
leftmost physical face equals the one at the rightmost physical face for any
state handed to the RHS evaluator. -/
theorem mass_conserved_of_ng_gt_order (sqrtF : ℚ → ℚ) (g : Grid1d)
    (tbl : WenoTables) (r : ℕ) (cfl gamma tmax : ℚ) (s : SimState)
    (hbc : g.bc = BC.periodic) (hr : 1 ≤ r) (hng : r + 1 ≤ g.ng)
    (hnx : g.ng ≤ g.nx) :
    massQ g (evolveStep sqrtF g tbl r cfl gamma tmax s).q = massQ g s.q ∧
    (∀ n, massQ g ((evolveGuard sqrtF g tbl r cfl gamma tmax)^[n] s).q
      = massQ g s.q) ∧
    ∀ q : ℕ → ℕ → ℚ, fluxArr tbl r g.N gamma (fill_BCs g q) 0 g.ng
      = fluxArr tbl r g.N gamma (fill_BCs g q) 0 (g.ng + g.nx) :=
  ⟨mass_evolveStep sqrtF g tbl r cfl gamma tmax s hbc hr hng hnx,
   fun n => mass_evolveGuard_iterate sqrtF g tbl r cfl gamma tmax s hbc hr hng hnx n,
   fun q => fluxArr_periodic g tbl r gamma q hbc hr hng hnx 0⟩

/-- Witness for the amended C4 on a concrete periodic grid with
`nx = 3`, `ng = 3 = order + 1`. -/
theorem mass_conserved_witness :
    massQ gPer33 (evolveStep (fun x => x) gPer33 tblSimple 2 (1/2) (7/5) 1
        ⟨0, qUnif⟩).q
      = massQ gPer33 (⟨0, qUnif⟩ : SimState).q :=
  (mass_conserved_of_ng_gt_order (fun x => x) gPer33 tblSimple 2 (1/2) (7/5) 1
    ⟨0, qUnif⟩ rfl (by decide) (by decide) (by decide)).1

/-- C4 counterexample: on the periodic grid with `ng = order = 3`, `nx = 4`
and the uniform state, the flux at the leftmost physical face differs from
the flux at the rightmost physical face (a placeholder sits in the latter),
and the physical-cell total of the RHS is nonzero: the flux-difference form
does not conserve mass at `ng = order`. -/
theorem mass_not_conserved_at_ng_eq_order :
    fluxArr tblSimple 3 gPer43.N (7/5) (fill_BCs gPer43 qUnif) 0 gPer43.ng
      ≠ fluxArr tblSimple 3 gPer43.N (7/5) (fill_BCs gPer43 qUnif) 0
          (gPer43.ng + gPer43.nx) ∧
    ∑ j ∈ Finset.range gPer43.nx,
      rk_substep gPer43 tblSimple 3 (7/5) qUnif 0 (gPer43.ng + j) ≠ 0 := by
  constructor <;>
    norm_num [rk_substep, rhsArr, fluxArr, fprArr, fmlArr, wenoQL, wenoVal, alphaQ,
      betaQ, stencilQ, sumAlphaQ, epsW, tblSimple, gPer43, qUnif, Grid1d.N, Grid1d.dx,
      fill_BCs, fpArr, fmArr, euler_flux, splitAlpha, listMax, List.range_succ,
      max_def, Finset.sum_range_succ]

/-- C6: one full RK4 step computes `k1 = dt*RHS(q_start)` at the (filled)
stored start state, evaluates the stages at `q_start + k1/2`, `q_start + k2/2`
and `q_start + k3`, uses the single `dt` computed once from the pre-step state
in all four stages, and writes `q_start + (k1 + 2*(k2 + k3) + k4)/6` into the
canonical state only after the fourth stage. -/
theorem rk4_step_structure (sqrtF : ℚ → ℚ) (g : Grid1d) (tbl : WenoTables)
    (r : ℕ) (cfl gamma tmax : ℚ) (s : SimState) :
    evolveStep sqrtF g tbl r cfl gamma tmax s =
      let qb := fill_BCs g s.q
      let dt := stepDt sqrtF g cfl gamma tmax s.t qb
      let k1 := fun nv i => dt * rk_substep g tbl r gamma qb nv i
      let k2 := fun nv i =>
        dt * rk_substep g tbl r gamma (fun v j => qb v j + k1 v j / 2) nv i
      let k3 := fun nv i =>
        dt * rk_substep g tbl r gamma (fun v j => qb v j + k2 v j / 2) nv i
      let k4 := fun nv i =>
        dt * rk_substep g tbl r gamma (fun v j => qb v j + k3 v j) nv i
      ⟨s.t + dt,
        fun nv i => qb nv i + (k1 nv i + 2 * (k2 nv i + k3 nv i) + k4 nv i) / 6⟩ :=
  rfl

/-- C8: in every pass of the evolve loop, the time advances by the `stepDt`
computed once from the ghost-filled pre-step state; that `dt` is at most
`C*dx/max_lambda` with `max_lambda = max(|v| + cs)` over all cells of the
pre-step state, and `t + dt` never overshoots `tmax`. -/
theorem cfl_dt_bound_and_clip (sqrtF : ℚ → ℚ) (g : Grid1d) (tbl : WenoTables)
    (r : ℕ) (cfl gamma tmax : ℚ) (s : SimState) :
    (evolveStep sqrtF g tbl r cfl gamma tmax s).t
        = s.t + stepDt sqrtF g cfl gamma tmax s.t (fill_BCs g s.q) ∧
    stepDt sqrtF g cfl gamma tmax s.t (fill_BCs g s.q)
        ≤ cfl * g.dx / maxLambdaQ sqrtF gamma g.N (fill_BCs g s.q) ∧
    timestepQ sqrtF g cfl gamma (fill_BCs g s.q)
        = cfl * g.dx / maxLambdaQ sqrtF gamma g.N (fill_BCs g s.q) ∧
    s.t + stepDt sqrtF g cfl gamma tmax s.t (fill_BCs g s.q) ≤ tmax :=
  ⟨evolveStep_t sqrtF g tbl r cfl gamma tmax s,
   stepDt_le sqrtF g cfl gamma tmax s.t (fill_BCs g s.q),
   rfl,
   stepDt_no_overshoot sqrtF g cfl gamma tmax s.t (fill_BCs g s.q)⟩

/-- C10: for both boundary kinds `fill_BCs` leaves every physical cell
unchanged, and for outflow every left ghost cell receives `q[:, ng]` and
every right ghost cell receives `q[:, ng+nx-1]`, exactly. -/
theorem fill_BCs_frame (g : Grid1d) (q : ℕ → ℕ → ℚ) (nv i : ℕ) :
    (g.ng ≤ i → i < g.ng + g.nx → fill_BCs g q nv i = q nv i) ∧
    (g.bc = BC.outflow → i < g.ng → fill_BCs g q nv i = q nv g.ng) ∧
    (g.bc = BC.outflow → g.ng + g.nx ≤ i → i < g.N →
      fill_BCs g q nv i = q nv (g.ng + g.nx - 1)) := by
  refine ⟨fun h1 h2 => fill_BCs_phys g q nv i h1 h2,
    fun hbc h => ?_, fun hbc h hN => ?_⟩
  · simp only [fill_BCs, hbc]
    rw [if_pos h]
  · simp only [fill_BCs, hbc]
    rw [if_neg (by omega), if_pos (by omega)]

/-- Witness for C10 on the outflow grid `nx = 2`, `ng = 1`. -/
theorem fill_BCs_frame_witness :
    fill_BCs gOut21 qCells 0 1 = qCells 0 1 ∧
    fill_BCs gOut21 qCells 0 0 = qCells 0 1 ∧
    fill_BCs gOut21 qCells 0 3 = qCells 0 2 :=
  ⟨(fill_BCs_frame gOut21 qCells 0 1).1 (by decide) (by decide),
   (fill_BCs_frame gOut21 qCells 0 0).2.1 rfl (by decide),
   (fill_BCs_frame gOut21 qCells 0 3).2.2 rfl (by decide) (by decide)⟩

/-- Witness for C5: the order-3 table `tblSimple` meets the consistency
conditions and the constant field 5 reconstructs to 5 at interior index 3. -/
theorem weno_constant_reconstruction_witness :
    wenoQL 3 7 tblSimple (fun _ _ => (5:ℚ)) 0 3 = 5 :=
  weno_constant_reconstruction 3 7 tblSimple 5 0 3 (by decide) (by decide)
    (by norm_num [tblSimple, Finset.sum_range_succ])
    (fun k _ => by norm_num [tblSimple, Finset.sum_range_succ])
    (fun k _ => by simp [tblSimple])
    (by decide) (by decide) (by decide)

/-- C9 counterexample: a sequence of strictly positive pre-step wave speeds
(`2^(n+1)`, doubling every pass) under which the evolve loop's time recursion
`tLoop` (certified against the loop by `evolve_t_eq_tLoop`) never reaches
`tmax = 1`: strict positivity of the wave speeds alone does not make the loop
terminate. -/
theorem positive_wave_speed_insufficient_for_exit :
    (∀ n : ℕ, (0:ℚ) < (2:ℚ) ^ (n + 1)) ∧ (0:ℚ) < 1 ∧
      ¬ ∃ n : ℕ, tLoop 1 1 (fun k => (2:ℚ) ^ (k + 1)) n = 1 := by
  refine ⟨fun n => pow_pos (by norm_num) _, by norm_num, ?_⟩
  rintro ⟨n, hn⟩
  rw [tLoop_pow_formula n] at hn
  have h := pow_pos (show (0:ℚ) < 1/2 by norm_num) n
  linarith

/-- C7: `f_plus + f_minus = f(q)` exactly; the splitting parameter is the
maximum of `|q|` over all three components and all cells (bound and
attainment); the numerical flux at each interior face is the sum of the
plus-family reconstruction (left-to-right, at index `j-1` of the width-`N-1`
input) and the minus-family reconstruction (right-to-left by reversal, at
index `N-1-j` of the reversed width-`N` input); and the RHS evaluator applies
all of this to the ghost-filled current state. -/
theorem lax_friedrichs_splitting (g : Grid1d) (tbl : WenoTables) (r : ℕ)
    (gamma : ℚ) (q qpre : ℕ → ℕ → ℚ) (nv i j : ℕ) (hnv : nv < 3) (hi : i < g.N)
    (hj : 1 ≤ j) (hjN : j + 1 < g.N) :
    (fpArr gamma g.N q nv i + fmArr gamma g.N q nv i = euler_flux gamma q nv i) ∧
    |q nv i| ≤ splitAlpha g.N q ∧
    (∃ w, w < 3 ∧ ∃ m, m < g.N ∧ splitAlpha g.N q = |q w m|) ∧
    fluxArr tbl r g.N gamma q nv j
      = fprArr tbl r g.N gamma q nv j + fmlArr tbl r g.N gamma q nv j ∧
    fprArr tbl r g.N gamma q nv j
      = wenoQL r (g.N - 1) tbl (fpArr gamma g.N q) nv (j - 1) ∧
    fmlArr tbl r g.N gamma q nv j
      = wenoQL r g.N tbl (fun w i2 => fmArr gamma g.N q w (g.N - 1 - i2)) nv
          (g.N - 1 - j) ∧
    rk_substep g tbl r gamma qpre
      = rhsArr tbl r g.N g.dx gamma (fill_BCs g qpre) := by
  have hmem : |q nv i| ∈
      (List.range 3).flatMap fun w => (List.range g.N).map fun m => |q w m| :=
    List.mem_flatMap.mpr
      ⟨nv, List.mem_range.mpr hnv, List.mem_map.mpr ⟨i, List.mem_range.mpr hi, rfl⟩⟩
  refine ⟨by unfold fpArr fmArr; ring, le_listMax hmem, ?_, ?_, ?_, ?_, rfl⟩
  · have hmax := listMax_mem (List.ne_nil_of_mem hmem)
    obtain ⟨w, hw, hrest⟩ := List.mem_flatMap.mp hmax
    obtain ⟨m, hm, hval⟩ := List.mem_map.mp hrest
    exact ⟨w, List.mem_range.mp hw, m, List.mem_range.mp hm, hval.symm⟩
  · unfold fluxArr
    rw [if_pos ⟨hj, hjN⟩]
  · unfold fprArr
    rw [if_pos hj]
  · unfold fmlArr
    rw [if_pos (by omega)]

/-- Witness for C7 at a concrete grid, state and indices. -/
theorem lax_friedrichs_splitting_witness :
    |qCells 0 0| ≤ splitAlpha gTiny.N qCells :=
  (lax_friedrichs_splitting gTiny tblSimple 3 (7/5) qCells qCells 0 0 1
    (by decide) (by decide) (by decide) (by decide)).2.1

/-- Witness for the amended C9: on the tiny outflow grid the RHS vanishes
identically, the wave speed is constantly 1 under the constant-1 `sqrtF`, so
the hypotheses hold with bound `M = 1` and the loop reaches `tmax = 1/2`. -/
theorem evolve_terminates_witness :
    ∃ n, ∀ m, n ≤ m →
      ((evolveGuard (fun _ => 1) gTiny tblSimple 3 1 (7/5) (1/2))^[m]
        (⟨0, qUnif⟩ : SimState)).t = 1/2 := by
  have hrhs : ∀ (q : ℕ → ℕ → ℚ) (nv j : ℕ),
      rk_substep gTiny tblSimple 3 (7/5) q nv j = 0 := by
    intro q nv j
    unfold rk_substep rhsArr
    split
    · next h =>
      have h3 : gTiny.N = 3 := rfl
      have hj : j = 1 := by omega
      subst hj
      norm_num [fluxArr, fprArr, fmlArr, wenoQL, Grid1d.N, gTiny]
    · rfl
  have hstepq : ∀ (s : SimState) (nv i : ℕ),
      (evolveStep (fun _ => 1) gTiny tblSimple 3 1 (7/5) (1/2) s).q nv i
        = fill_BCs gTiny s.q nv i := by
    intro s nv i
    rw [evolveStep_q]
    simp only [hrhs]
    norm_num
  have hqn : ∀ n, ∀ nv i,
      ((evolveGuard (fun _ => 1) gTiny tblSimple 3 1 (7/5) (1/2))^[n]
        (⟨0, qUnif⟩ : SimState)).q nv i = qUnif nv i := by
    intro n
    induction n with
    | zero => intro nv i; rfl
    | succ n ih =>
      intro nv i
      rw [Function.iterate_succ_apply']
      show (if (((evolveGuard (fun _ => 1) gTiny tblSimple 3 1 (7/5) (1/2))^[n]
          (⟨0, qUnif⟩ : SimState))).t < 1/2 then
        evolveStep (fun _ => 1) gTiny tblSimple 3 1 (7/5) (1/2)
          ((evolveGuard (fun _ => 1) gTiny tblSimple 3 1 (7/5) (1/2))^[n]
            (⟨0, qUnif⟩ : SimState))
        else ((evolveGuard (fun _ => 1) gTiny tblSimple 3 1 (7/5) (1/2))^[n]
          (⟨0, qUnif⟩ : SimState))).q nv i = qUnif nv i
      split
      · rw [hstepq]
        show (if i < gTiny.ng then
            ((evolveGuard (fun _ => 1) gTiny tblSimple 3 1 (7/5) (1/2))^[n]
              (⟨0, qUnif⟩ : SimState)).q nv gTiny.ng
          else if gTiny.nx + gTiny.ng ≤ i then
            ((evolveGuard (fun _ => 1) gTiny tblSimple 3 1 (7/5) (1/2))^[n]
              (⟨0, qUnif⟩ : SimState)).q nv (gTiny.ng + gTiny.nx - 1)
          else ((evolveGuard (fun _ => 1) gTiny tblSimple 3 1 (7/5) (1/2))^[n]
            (⟨0, qUnif⟩ : SimState)).q nv i) = qUnif nv i
        split_ifs <;> (rw [ih]; try exact rfl)
      · exact ih nv i
  have hqf : ∀ n nv i,
      fill_BCs gTiny ((evolveGuard (fun _ => 1) gTiny tblSimple 3 1 (7/5)
        (1/2))^[n] (⟨0, qUnif⟩ : SimState)).q nv i = qUnif nv i := by
    intro n nv i
    show (if i < gTiny.ng then
        ((evolveGuard (fun _ => 1) gTiny tblSimple 3 1 (7/5) (1/2))^[n]
          (⟨0, qUnif⟩ : SimState)).q nv gTiny.ng
      else if gTiny.nx + gTiny.ng ≤ i then
        ((evolveGuard (fun _ => 1) gTiny tblSimple 3 1 (7/5) (1/2))^[n]
          (⟨0, qUnif⟩ : SimState)).q nv (gTiny.ng + gTiny.nx - 1)
      else ((evolveGuard (fun _ => 1) gTiny tblSimple 3 1 (7/5) (1/2))^[n]
        (⟨0, qUnif⟩ : SimState)).q nv i) = qUnif nv i
    split_ifs <;> (rw [hqn]; try exact rfl)
  have hlam : ∀ n, maxLambdaQ (fun _ => 1) (7/5) gTiny.N
      (fill_BCs gTiny ((evolveGuard (fun _ => 1) gTiny tblSimple 3 1 (7/5)
        (1/2))^[n] (⟨0, qUnif⟩ : SimState)).q) = 1 := by
    intro n
    unfold maxLambdaQ
    have hele : ∀ i : ℕ,
        |vAt (fill_BCs gTiny ((evolveGuard (fun _ => 1) gTiny tblSimple 3 1
          (7/5) (1/2))^[n] (⟨0, qUnif⟩ : SimState)).q) i|
          + (fun _ : ℚ => (1:ℚ))
              (csArg (7/5) (fill_BCs gTiny ((evolveGuard (fun _ => 1) gTiny
                tblSimple 3 1 (7/5) (1/2))^[n] (⟨0, qUnif⟩ : SimState)).q) i)
          = 1 := by
      intro i
      simp only [vAt, hqf]
      norm_num [qUnif]
    have h3 : gTiny.N = 3 := rfl
    rw [h3]
    rw [show List.range 3 = [0, 1, 2] from rfl]
    simp only [List.map_cons, List.map_nil, hele]
    norm_num [listMax]
  exact evolve_terminates_of_bounded_wave_speed (fun _ => 1) gTiny tblSimple 3
    1 (7/5) (1/2) 1 ⟨0, qUnif⟩ rfl (by norm_num)
    (by norm_num [Grid1d.dx, gTiny])
    (fun n _ => by rw [hlam n]; norm_num)
